import Mathlib

/-!
Shallow embedding of the substitution-cipher decryptor (`pypher.py`):
the quadgram scorer, the substitution-key space, the hill-climbing local
search, the multi-restart solver, the hash-keyed decryption cache, and the
JSON-shaped persisted cache entries.  Text is modelled as `List Char`;
scores live in an arbitrary linear ordered field (instantiated at `ℝ` when
the base-10 logarithms of the scorer matter, and at `ℚ` for concrete
evaluations).  Randomness (the initial shuffled key and the iteration swap
choices) is passed in explicitly as data.
-/

namespace Pypher

/-! ### ASCII character helpers (Python `str.upper`, `str.isupper`, ...) -/

/-- Uppercase letter with index `i` (`'A'` is index 0). -/
def upChar (i : Fin 26) : Char := Char.ofNat (65 + i.val)

/-- Lowercase letter with index `i` (`'a'` is index 0). -/
def lowChar (i : Fin 26) : Char := Char.ofNat (97 + i.val)

/-- ASCII test for an uppercase letter, as in Python's `isupper` on ASCII. -/
def isUpperA (c : Char) : Bool := 65 ≤ c.toNat && c.toNat ≤ 90

/-- ASCII test for a lowercase letter. -/
def isLowerA (c : Char) : Bool := 97 ≤ c.toNat && c.toNat ≤ 122

/-- ASCII test for a letter. -/
def isAlphaA (c : Char) : Bool := isUpperA c || isLowerA c

/-- ASCII uppercasing, as in Python's `str.upper` on ASCII text. -/
def toUpperA (c : Char) : Char := if isLowerA c then Char.ofNat (c.toNat - 32) else c

/-- ASCII lowercasing, as in Python's `str.lower` on ASCII text. -/
def toLowerA (c : Char) : Char := if isUpperA c then Char.ofNat (c.toNat + 32) else c

/-- Index of an uppercase letter in the alphabet, `none` for any other character. -/
def upperIdx? (c : Char) : Option (Fin 26) :=
  if h : 65 ≤ c.toNat ∧ c.toNat ≤ 90 then some ⟨c.toNat - 65, by omega⟩ else none

/-! ### `decrypt` (pypher.py): apply a substitution mapping to the ciphertext -/

/-- One character of `decrypt`: look up `char.upper()` in the key mapping;
on a hit, return the mapped character with the original case; otherwise
pass the character through unchanged. -/
def decryptChar (m : Char → Option Char) (c : Char) : Char :=
  match m (toUpperA c) with
  | some d => if isUpperA c then d else toLowerA d
  | none => c

/-- The source's `decrypt(ciphertext, key_mapping)`. -/
def decrypt (ct : List Char) (m : Char → Option Char) : List Char :=
  ct.map (decryptChar m)

/-- A total substitution mapping on the alphabet, given as a function on
letter indices: the dictionary of a valid (total) substitution key. -/
def finCharMap (f : Fin 26 → Fin 26) : Char → Option Char :=
  fun c => (upperIdx? c).map (fun i => upChar (f i))

/-! ### Quadgram scorer (pypher.py `QuadgramScorer`) -/

/-- Quadgram model: tabulated log-probabilities plus the floor value for
unseen quadgrams.  The value type `R` is kept abstract so that searches can
be evaluated exactly (`ℚ`) while the log-based construction lives in `ℝ`. -/
structure QuadgramScorer (R : Type) where
  logProb : List (List Char × R)
  floor : R

/-- Tabulated log-probability of a quadgram if present, else the floor. -/
def quadProb {R : Type} (sc : QuadgramScorer R) (q : List Char) : R :=
  match sc.logProb.lookup q with
  | some v => v
  | none => sc.floor

/-- The source's `QuadgramScorer.score`: uppercase the text, remove spaces,
then sum the quadgram values of each window `text[i:i+4]` for
`i in range(len(text) - 3)`. -/
def QuadgramScorer.score {R : Type} [LinearOrderedField R]
    (sc : QuadgramScorer R) (text : List Char) : R :=
  let t := (text.map toUpperA).filter (fun c => c != ' ')
  (List.range (t.length - 3)).foldl (fun acc i => acc + quadProb sc ((t.drop i).take 4)) 0

/-- Total count of a parsed quadgram table. -/
def totalOf (table : List (List Char × ℕ)) : ℕ := (table.map Prod.snd).sum

/-- Scorer construction from a parsed "TOKEN COUNT" table: each count is
normalized by the total and passed through the logarithm `lg`; the floor is
`lg` of `0.01 / total`.  Instantiating `lg` with `Real.logb 10` of the cast
gives the source's `log10` construction. -/
def mkScorerWith {R : Type} (lg : ℚ → R) (table : List (List Char × ℕ)) : QuadgramScorer R :=
  { logProb := table.map (fun p => (p.1, lg ((p.2 : ℚ) / (totalOf table : ℚ)))),
    floor := lg ((1 / 100 : ℚ) / (totalOf table : ℚ)) }

/-- The built-in fallback quadgram table of `QuadgramScorer.__init__`. -/
def defaultQuadgrams : List (List Char × ℕ) :=
  [(['T', 'H', 'E', 'N'], 10), (['T', 'H', 'E', 'R'], 9),
   (['T', 'I', 'O', 'N'], 8), (['H', 'E', 'R', 'E'], 7),
   (['T', 'H', 'A', 'T'], 7), (['A', 'T', 'I', 'O'], 6),
   (['N', 'D', 'T', 'H'], 5), (['T', 'H', 'E', 'M'], 5)]

/-- The scorer built from the fallback table with the source's base-10
logarithms, idealized over `ℝ` (the code computes the same quantities in
floating point). -/
noncomputable def defaultScorerR : QuadgramScorer ℝ :=
  mkScorerWith (fun q => Real.logb 10 (q : ℝ)) defaultQuadgrams

/-- Overlapping windows of 4 consecutive symbols, written independently of
the indexed loop of `score` (used to state the windowed-sum property). -/
def windows4 : List Char → List (List Char)
  | a :: b :: c :: d :: rest => [a, b, c, d] :: windows4 (b :: c :: d :: rest)
  | _ => []

/-- Sum of the quadgram values of all overlapping 4-windows of a text. -/
def windowSum {R : Type} [LinearOrderedField R] (sc : QuadgramScorer R) (t : List Char) : R :=
  ((windows4 t).map (quadProb sc)).sum

/-- Modelled from the spec's words for the scoring preprocessing ("strip
non-alphabetic characters, normalize case"): keep only letters, uppercase
them.  Stated only to be compared with the source's preprocessing. -/
def specNormalize (text : List Char) : List Char :=
  (text.filter isAlphaA).map toUpperA

/-- Modelled from the spec's words for `score`: the windowed quadgram sum
of the text after stripping all non-alphabetic characters and normalizing
case.  Stated only to be compared with the source's `score`. -/
def specScore {R : Type} [LinearOrderedField R] (sc : QuadgramScorer R) (text : List Char) : R :=
  windowSum sc (specNormalize text)

/-! ### Key space: permutations of the alphabet and swap mutation -/

/-- Swap the letters at positions `a` and `b` of a key (the mutation step
`new_key_list[a], new_key_list[b] = new_key_list[b], new_key_list[a]`).
A key is the function sending a position of the key string to the letter
index stored there. -/
def swapPos (k : Fin 26 → Fin 26) (a b : Fin 26) : Fin 26 → Fin 26 :=
  fun i => if i = a then k b else if i = b then k a else k i

/-- The dictionary `{key[i]: alphabet[i] for i in range(26)}`, built by
successive insertion exactly like the Python comprehension (later bindings
overwrite earlier ones). -/
def mappingOf (k : Fin 26 → Fin 26) : Fin 26 → Option (Fin 26) :=
  (List.finRange 26).foldl (fun m i => fun c => if c = k i then some i else m c) (fun _ => none)

/-- The character-level mapping induced by a key's dictionary. -/
def keyCharMap (k : Fin 26 → Fin 26) : Char → Option Char :=
  fun c => ((upperIdx? c).bind (mappingOf k)).map upChar

/-! ### Hill climbing (pypher.py `hill_climb`) -/

/-- State of one hill-climbing run: the current key and score, and the
best key and score seen so far. -/
structure HCState (R : Type) where
  currentKey : Fin 26 → Fin 26
  currentScore : R
  bestKey : Fin 26 → Fin 26
  bestScore : R

/-- Score of the decryption of the ciphertext under a key's mapping. -/
def scoreOfKey {R : Type} [LinearOrderedField R]
    (ct : List Char) (sc : QuadgramScorer R) (k : Fin 26 → Fin 26) : R :=
  sc.score (decrypt ct (keyCharMap k))

/-- One iteration of the hill-climbing loop: mutate the current key by the
given position swap, accept it as current only if its score is strictly
greater, and update the tracked best on a strict improvement over it. -/
def hillClimbStep {R : Type} [LinearOrderedField R]
    (ct : List Char) (sc : QuadgramScorer R) (st : HCState R) (p : Fin 26 × Fin 26) : HCState R :=
  let nk := swapPos st.currentKey p.1 p.2
  let ns := scoreOfKey ct sc nk
  if st.currentScore < ns then
    if st.bestScore < ns then ⟨nk, ns, nk, ns⟩ else ⟨nk, ns, st.bestKey, st.bestScore⟩
  else st

/-- Initial state of a run: the freshly shuffled key is both current and
best, with its own score. -/
def hcInit {R : Type} [LinearOrderedField R]
    (ct : List Char) (sc : QuadgramScorer R) (k0 : Fin 26 → Fin 26) : HCState R :=
  ⟨k0, scoreOfKey ct sc k0, k0, scoreOfKey ct sc k0⟩

/-- State of a run after `n` iterations; `rand n` supplies the two swap
positions drawn at iteration `n`. -/
def hcIter {R : Type} [LinearOrderedField R] (ct : List Char) (sc : QuadgramScorer R)
    (k0 : Fin 26 → Fin 26) (rand : ℕ → Fin 26 × Fin 26) : ℕ → HCState R
  | 0 => hcInit ct sc k0
  | n + 1 => hillClimbStep ct sc (hcIter ct sc k0 rand n) (rand n)

/-- The source's `hill_climb`: run exactly `max_iter` iterations and return
the decryption under the best key, the best key, and the best score. -/
def hill_climb {R : Type} [LinearOrderedField R] (ct : List Char) (sc : QuadgramScorer R)
    (k0 : Fin 26 → Fin 26) (rand : ℕ → Fin 26 × Fin 26) (max_iter : ℕ) :
    List Char × (Fin 26 → Fin 26) × R :=
  let st := hcIter ct sc k0 rand max_iter
  (decrypt ct (keyCharMap st.bestKey), st.bestKey, st.bestScore)

/-! ### Multi-restart solver (pypher.py `solve_substitution`) -/

/-- One restart of `solve_substitution`: run `hill_climb` with the
restart's own initial key and random stream, and keep the result if its
score strictly exceeds the best found so far (`none` plays the role of the
initial `-inf` score with no candidate). -/
def solveStep {R : Type} [LinearOrderedField R] (ct : List Char) (sc : QuadgramScorer R)
    (iters : ℕ) (acc : Option (List Char × (Fin 26 → Fin 26) × R))
    (r : (Fin 26 → Fin 26) × (ℕ → Fin 26 × Fin 26)) :
    Option (List Char × (Fin 26 → Fin 26) × R) :=
  let c := hill_climb ct sc r.1 r.2 iters
  match acc with
  | none => some c
  | some b => if b.2.2 < c.2.2 then some c else some b

/-- The source's `solve_substitution`: fold the restarts, keeping the
candidate with the strictly highest score. -/
def solve_substitution {R : Type} [LinearOrderedField R] (ct : List Char)
    (sc : QuadgramScorer R) (runs : List ((Fin 26 → Fin 26) × (ℕ → Fin 26 × Fin 26)))
    (iters : ℕ) : Option (List Char × (Fin 26 → Fin 26) × R) :=
  runs.foldl (solveStep ct sc iters) none

/-- Keep the better of an incumbent and a challenger, preferring the
incumbent on ties (the max-reduction underlying `solve_substitution`). -/
def pickBetter {α : Type} {R : Type} [LinearOrderedField R] (f : α → R) (b x : α) : α :=
  if f b < f x then x else b

/-! ### Decryption cache (pypher.py `main`) -/

/-- A cached result: the decrypted text, the winning key mapping, and the
score, as stored in `decryption_cache.json`. -/
structure CacheEntry (R : Type) where
  decrypted_text : List Char
  mapping : Char → Option Char
  score : R

/-- Cache lookup by hex-encoded content hash. -/
def cacheGet {R : Type} (cache : List (String × CacheEntry R)) (h : String) :
    Option (CacheEntry R) :=
  cache.lookup h

/-- Cache write (`cache[file_hash] = ...`): the new binding shadows any
older one for the same hash. -/
def cachePut {R : Type} (cache : List (String × CacheEntry R)) (h : String) (e : CacheEntry R) :
    List (String × CacheEntry R) :=
  (h, e) :: cache

/-- The caching flow of `main`: hash the input bytes; on a hit return the
stored entry without running the optimizer; on a miss run the solver, write
the fresh entry to the cache, and return it.  The boolean records whether
the optimizer was invoked. -/
def processFile {R : Type} (hash : List ℕ → String) (solver : List ℕ → CacheEntry R)
    (cache : List (String × CacheEntry R)) (bytes : List ℕ) :
    CacheEntry R × List (String × CacheEntry R) × Bool :=
  match cacheGet cache (hash bytes) with
  | some e => (e, cache, false)
  | none =>
    let e := solver bytes
    (e, cachePut cache (hash bytes) e, true)

/-! ### Persisted cache entries as JSON values (corruption behaviour) -/

/-- JSON-shaped values of the persisted cache file. -/
inductive JVal where
  | str : String → JVal
  | num : ℚ → JVal
  | obj : List (String × JVal) → JVal

/-- Field access `value[key]` on a parsed JSON value: a `KeyError` when the
field is absent, a `TypeError` when the value is not an object. -/
def getField : JVal → String → Except String JVal
  | JVal.obj fields, key =>
    match fields.lookup key with
    | some v => Except.ok v
    | none => Except.error "KeyError"
  | _, _ => Except.error "TypeError"

/-- Coercion of a parsed JSON value to the decrypted text: a `TypeError`
unless it is a string. -/
def asStr : JVal → Except String String
  | JVal.str s => Except.ok s
  | _ => Except.error "TypeError"

/-- The cache-hit path of `main` on the persisted JSON cache: on a hit the
code evaluates `cache[file_hash]["decrypted_text"]` unconditionally; on a
miss it runs the solver.  Any failure of the field access is an uncaught
exception of the hit path. -/
def retrieveDecryption (cache : List (String × JVal)) (h : String)
    (solver : Unit → String) : Except String String :=
  match cache.lookup h with
  | some entry => (getField entry "decrypted_text").bind asStr
  | none => Except.ok (solver ())

/-! ### Derived notions used in the statements -/

/-- Exchange of two positions (the index permutation realised by the
source's two-element swap). -/
def swapFn (a b : Fin 26) (i : Fin 26) : Fin 26 :=
  if i = a then b else if i = b then a else i

/-- The key dictionary is a total bijection over the 26-letter alphabet:
every cipher letter is mapped (no omissions on the domain), no two cipher
letters share a plaintext letter (no collisions), every plaintext letter is
assigned (no omissions on the range), and each binding comes from the key. -/
def MappingBijective (k : Fin 26 → Fin 26) : Prop :=
  (∀ c : Fin 26, ∃ i, mappingOf k c = some i) ∧
  (∀ c₁ c₂ i : Fin 26, mappingOf k c₁ = some i → mappingOf k c₂ = some i → c₁ = c₂) ∧
  (∀ i : Fin 26, ∃ c, mappingOf k c = some i) ∧
  (∀ c i : Fin 26, mappingOf k c = some i → k i = c)

/-! ## Character-level lemmas -/

theorem char_toNat_inj {c d : Char} (h : c.toNat = d.toNat) : c = d :=
  Char.ext (UInt32.ext h)

theorem toNat_upChar : ∀ i : Fin 26, (upChar i).toNat = 65 + i.val := by decide

theorem toNat_lowChar : ∀ i : Fin 26, (lowChar i).toNat = 97 + i.val := by decide

theorem rep_upper {c : Char} (h : isUpperA c = true) : ∃ i : Fin 26, c = upChar i := by
  simp only [isUpperA, Bool.and_eq_true, decide_eq_true_eq] at h
  refine ⟨⟨c.toNat - 65, by omega⟩, char_toNat_inj ?_⟩
  rw [toNat_upChar]; simp only [Fin.val_mk]; omega

theorem rep_lower {c : Char} (h : isLowerA c = true) : ∃ i : Fin 26, c = lowChar i := by
  simp only [isLowerA, Bool.and_eq_true, decide_eq_true_eq] at h
  refine ⟨⟨c.toNat - 97, by omega⟩, char_toNat_inj ?_⟩
  rw [toNat_lowChar]; simp only [Fin.val_mk]; omega

theorem toUpperA_upChar : ∀ i : Fin 26, toUpperA (upChar i) = upChar i := by decide

theorem toUpperA_lowChar : ∀ i : Fin 26, toUpperA (lowChar i) = upChar i := by decide

theorem toLowerA_upChar : ∀ i : Fin 26, toLowerA (upChar i) = lowChar i := by decide

theorem upperIdx?_upChar : ∀ i : Fin 26, upperIdx? (upChar i) = some i := by decide

theorem isUpperA_upChar : ∀ i : Fin 26, isUpperA (upChar i) = true := by decide

theorem isUpperA_lowChar : ∀ i : Fin 26, isUpperA (lowChar i) = false := by decide

theorem isLowerA_lowChar : ∀ i : Fin 26, isLowerA (lowChar i) = true := by decide

theorem upChar_ne_space : ∀ i : Fin 26, (upChar i == ' ') = false := by decide

theorem lowChar_ne_space : ∀ i : Fin 26, (lowChar i == ' ') = false := by decide

theorem toUpperA_not_lower {c : Char} (h : isLowerA c = false) : toUpperA c = c := by
  simp [toUpperA, h]

theorem upperIdx?_eq_none {c : Char} (h : isUpperA c = false) : upperIdx? c = none := by
  simp only [isUpperA, Bool.and_eq_false_iff, decide_eq_false_iff_not] at h
  simp only [upperIdx?]
  rw [dif_neg]; omega

theorem upperIdx?_isSome {c : Char} {i : Fin 26} (h : upperIdx? c = some i) :
    isUpperA c = true := by
  by_cases hu : isUpperA c = true
  · exact hu
  · rw [upperIdx?_eq_none (by simpa using hu)] at h
    exact Option.noConfusion h

/-! ## Lemmas about `decryptChar` on substitution mappings -/

theorem decryptChar_finCharMap_up (f : Fin 26 → Fin 26) (i : Fin 26) :
    decryptChar (finCharMap f) (upChar i) = upChar (f i) := by
  simp [decryptChar, finCharMap, toUpperA_upChar, upperIdx?_upChar, isUpperA_upChar]

theorem decryptChar_finCharMap_low (f : Fin 26 → Fin 26) (i : Fin 26) :
    decryptChar (finCharMap f) (lowChar i) = lowChar (f i) := by
  simp [decryptChar, finCharMap, toUpperA_lowChar, upperIdx?_upChar, isUpperA_lowChar,
    toLowerA_upChar]

theorem decryptChar_not_alpha {c : Char} (hu : isUpperA c = false) (hl : isLowerA c = false)
    (m : Char → Option Char) (hm : ∀ d, isUpperA d = false → m d = none) :
    decryptChar m c = c := by
  have ht : toUpperA c = c := toUpperA_not_lower hl
  simp [decryptChar, ht, hm c hu]

theorem finCharMap_none (f : Fin 26 → Fin 26) {d : Char} (hd : isUpperA d = false) :
    finCharMap f d = none := by
  simp [finCharMap, upperIdx?_eq_none hd]

theorem keyCharMap_none (k : Fin 26 → Fin 26) {d : Char} (hd : isUpperA d = false) :
    keyCharMap k d = none := by
  simp [keyCharMap, upperIdx?_eq_none hd]

/-! ## C5 — decrypt / inverse-key round trip -/

/-- C5: for every valid (bijective) substitution key and its inverse key,
decrypting and then decrypting with the inverse recovers the original text
exactly; moreover each single application substitutes uppercase letters
through the mapping, substitutes lowercase letters preserving their case,
and passes every non-alphabetic character through unchanged. -/
theorem decrypt_roundtrip (f g : Fin 26 → Fin 26) (hgf : ∀ i, g (f i) = i)
    (hfg : ∀ i, f (g i) = i) (ct : List Char) :
    decrypt (decrypt ct (finCharMap f)) (finCharMap g) = ct ∧
    (∀ i : Fin 26, decryptChar (finCharMap f) (upChar i) = upChar (f i)) ∧
    (∀ i : Fin 26, decryptChar (finCharMap f) (lowChar i) = lowChar (f i)) ∧
    (∀ c : Char, isAlphaA c = false → decryptChar (finCharMap f) c = c) := by
  have hpass : ∀ (h : Fin 26 → Fin 26) (c : Char), isAlphaA c = false →
      decryptChar (finCharMap h) c = c := by
    intro h c hc
    simp only [isAlphaA, Bool.or_eq_false_iff] at hc
    exact decryptChar_not_alpha hc.1 hc.2 (finCharMap h) (fun d hd => finCharMap_none h hd)
  refine ⟨?_, decryptChar_finCharMap_up f, decryptChar_finCharMap_low f, hpass f⟩
  simp only [decrypt, List.map_map]
  have hchar : ∀ c : Char,
      decryptChar (finCharMap g) (decryptChar (finCharMap f) c) = c := by
    intro c
    by_cases hu : isUpperA c = true
    · obtain ⟨i, rfl⟩ := rep_upper hu
      rw [decryptChar_finCharMap_up, decryptChar_finCharMap_up, hgf]
    · by_cases hl : isLowerA c = true
      · obtain ⟨i, rfl⟩ := rep_lower hl
        rw [decryptChar_finCharMap_low, decryptChar_finCharMap_low, hgf]
      · have hc : isAlphaA c = false := by
          simp [isAlphaA, Bool.or_eq_false_iff]
          exact ⟨by simpa using hu, by simpa using hl⟩
        rw [hpass f c hc, hpass g c hc]
  calc ct.map (fun c => decryptChar (finCharMap g) (decryptChar (finCharMap f) c))
      = ct.map id := List.map_congr_left (fun c _ => hchar c)
    _ = ct := List.map_id ct

/-- Closed instance of the round trip at the identity key on a text mixing
cases and a non-alphabetic character. -/
theorem decrypt_roundtrip_witness :
    decrypt (decrypt ['A', 'b', '?'] (finCharMap (fun i => i)))
      (finCharMap (fun i => i)) = ['A', 'b', '?'] :=
  (decrypt_roundtrip (fun i => i) (fun i => i) (fun _ => rfl) (fun _ => rfl)
    ['A', 'b', '?']).1

/-! ## Scoring lemmas (C3, C4) -/

theorem range_map_slice : ∀ t : List Char,
    (List.range (t.length - 3)).map (fun i => (t.drop i).take 4) = windows4 t
  | a :: b :: c :: d :: rest => by
    have ih := range_map_slice (b :: c :: d :: rest)
    have hlen : (a :: b :: c :: d :: rest).length - 3 = (b :: c :: d :: rest).length - 3 + 1 := by
      simp only [List.length_cons]; omega
    rw [hlen, List.range_succ_eq_map, List.map_cons, List.map_map]
    show _ = [a, b, c, d] :: windows4 (b :: c :: d :: rest)
    refine congrArg₂ List.cons rfl ?_
    rw [← ih]
    exact List.map_congr_left (fun i _ => rfl)
  | [] => rfl
  | [_] => rfl
  | [_, _] => rfl
  | [_, _, _] => rfl

theorem foldl_add_eq_sum {R : Type} [LinearOrderedField R] (g : ℕ → R) :
    ∀ (l : List ℕ) (x : R), l.foldl (fun acc i => acc + g i) x = x + (l.map g).sum
  | [], x => by simp
  | i :: l, x => by
    rw [List.foldl_cons, foldl_add_eq_sum g l (x + g i), List.map_cons, List.sum_cons, add_assoc]

/-- C3 amended: `score` equals the sum of the tabulated log-probability
(or the floor, for an absent quadgram) over every overlapping window of 4
consecutive symbols of the text after removing spaces and uppercasing
(the source strips only spaces, not every non-alphabetic character). -/
theorem score_eq_windowSum {R : Type} [LinearOrderedField R] (sc : QuadgramScorer R)
    (text : List Char) :
    sc.score text = windowSum sc ((text.map toUpperA).filter (fun c => c != ' ')) := by
  simp only [QuadgramScorer.score, windowSum]
  rw [foldl_add_eq_sum, zero_add, ← range_map_slice, List.map_map]
  rfl

/-- Closed instance of the windowed-sum form of `score` on a concrete text
containing spaces and punctuation. -/
theorem score_eq_windowSum_witness :
    QuadgramScorer.score (QuadgramScorer.mk ([] : List (List Char × ℚ)) (-1))
        ['a', ' ', 'b', '!', 'c'] =
      windowSum (QuadgramScorer.mk ([] : List (List Char × ℚ)) (-1))
        (((['a', ' ', 'b', '!', 'c'] : List Char).map toUpperA).filter (fun c => c != ' ')) :=
  score_eq_windowSum (QuadgramScorer.mk ([] : List (List Char × ℚ)) (-1)) ['a', ' ', 'b', '!', 'c']

theorem defaultFloor_neg : defaultScorerR.floor < 0 := by
  show Real.logb 10 (((1 / 100 : ℚ) / (totalOf defaultQuadgrams : ℚ) : ℚ) : ℝ) < 0
  have h : totalOf defaultQuadgrams = 57 := rfl
  rw [h]
  apply Real.logb_neg (by norm_num) <;> norm_num

/-- C3 as stated is false on the code: `score` removes only spaces, so on
the input "AB!!" it scores the single window "AB!!" with the floor value,
while the claimed normalization (strip all non-alphabetic characters)
leaves the two-letter text "AB" and an empty, zero-valued sum. -/
theorem score_strip_claim_counterexample :
    defaultScorerR.score ['A', 'B', '!', '!'] ≠ specScore defaultScorerR ['A', 'B', '!', '!'] := by
  have h1 : defaultScorerR.score ['A', 'B', '!', '!'] = 0 + defaultScorerR.floor := rfl
  have h2 : specScore defaultScorerR ['A', 'B', '!', '!'] = 0 := rfl
  rw [h1, h2, zero_add]
  exact ne_of_lt defaultFloor_neg

theorem toUpperA_space_iff (c : Char) : (toUpperA c != ' ') = (c != ' ') := by
  by_cases hl : isLowerA c = true
  · obtain ⟨i, rfl⟩ := rep_lower hl
    rw [toUpperA_lowChar]
    simp [bne, upChar_ne_space, lowChar_ne_space]
  · rw [toUpperA_not_lower (by simpa using hl)]

theorem keyCharMap_some {k : Fin 26 → Fin 26} {c d : Char} (h : keyCharMap k c = some d) :
    isUpperA c = true ∧ ∃ j, d = upChar j := by
  simp only [keyCharMap, Option.map_eq_some', Option.bind_eq_some] at h
  obtain ⟨j, ⟨i, hi, _⟩, rfl⟩ := h
  exact ⟨upperIdx?_isSome hi, j, rfl⟩

theorem decryptChar_keyCharMap_space (k : Fin 26 → Fin 26) (c : Char) :
    ((toUpperA (decryptChar (keyCharMap k) c)) != ' ') = ((toUpperA c) != ' ') := by
  rcases hm : keyCharMap k (toUpperA c) with _ | d
  · simp [decryptChar, hm]
  · obtain ⟨hup, j, rfl⟩ := keyCharMap_some hm
    obtain ⟨i, hi⟩ := rep_upper hup
    have key : decryptChar (keyCharMap k) c =
        if isUpperA c = true then upChar j else toLowerA (upChar j) := by
      simp only [decryptChar, hm]
    rw [key, hi]
    by_cases hc : isUpperA c = true
    · rw [if_pos hc, toUpperA_upChar]
      simp [bne, upChar_ne_space]
    · rw [if_neg hc, toLowerA_upChar, toUpperA_lowChar]
      simp [bne, upChar_ne_space]

theorem normLen_decrypt (k : Fin 26 → Fin 26) (t : List Char) :
    (((decrypt t (keyCharMap k)).map toUpperA).filter (fun c => c != ' ')).length =
    ((t.map toUpperA).filter (fun c => c != ' ')).length := by
  simp only [decrypt, ← List.countP_eq_length_filter, List.countP_map]
  exact List.countP_congr (fun c _ => by
    simp only [Function.comp_apply]
    rw [decryptChar_keyCharMap_space k c])

theorem score_of_short {R : Type} [LinearOrderedField R] (sc : QuadgramScorer R)
    (t : List Char) (h : ((t.map toUpperA).filter (fun c => c != ' ')).length ≤ 3) :
    sc.score t = 0 := by
  have h0 : ((t.map toUpperA).filter (fun c => c != ' ')).length - 3 = 0 := by omega
  simp [QuadgramScorer.score, h0]

/-- C4 amended: for every input with at most 3 non-space characters (the
source's `score` removes only spaces before windowing), `score` returns
exactly 0 both on the input and on every candidate decryption of it. -/
theorem score_short_input_zero {R : Type} [LinearOrderedField R] (text : List Char)
    (h : (text.filter (fun c => c != ' ')).length ≤ 3) (sc : QuadgramScorer R)
    (k : Fin 26 → Fin 26) :
    sc.score (decrypt text (keyCharMap k)) = 0 ∧ sc.score text = 0 := by
  have hnorm : ((text.map toUpperA).filter (fun c => c != ' ')).length ≤ 3 := by
    rw [← List.countP_eq_length_filter, List.countP_map]
    rw [← List.countP_eq_length_filter] at h
    calc List.countP ((fun c => c != ' ') ∘ toUpperA) text
        = List.countP (fun c => c != ' ') text :=
          List.countP_congr (fun c _ => by
            simp only [Function.comp_apply]
            rw [toUpperA_space_iff c])
      _ ≤ 3 := h
  exact ⟨score_of_short sc _ (by rw [normLen_decrypt]; exact hnorm),
    score_of_short sc text hnorm⟩

/-- Closed instance of the degenerate-input property on a three-character
input, with the score evaluated in `ℚ`. -/
theorem score_short_input_zero_witness :
    QuadgramScorer.score (QuadgramScorer.mk ([] : List (List Char × ℚ)) (-1))
      (decrypt ['a', 'b', ' '] (keyCharMap (fun i => i))) = 0 :=
  (score_short_input_zero ['a', 'b', ' '] (by decide)
    (QuadgramScorer.mk ([] : List (List Char × ℚ)) (-1)) (fun i => i)).1

/-! ## C6 — floor below every tabulated value -/

/-- C6: for any nonempty "TOKEN COUNT" table with positive counts (the
built-in fallback table included), the constructed scorer's floor equals
log10(0.01/total) and is strictly below every tabulated log-probability. -/
theorem scorer_floor_below_table (table : List (List Char × ℕ)) (hne : table ≠ [])
    (hpos : ∀ p ∈ table, 0 < p.2) :
    (mkScorerWith (fun q => Real.logb 10 (q : ℝ)) table).floor =
      Real.logb 10 ((0.01 : ℝ) / (totalOf table : ℝ)) ∧
    ∀ p ∈ (mkScorerWith (fun q => Real.logb 10 (q : ℝ)) table).logProb,
      (mkScorerWith (fun q => Real.logb 10 (q : ℝ)) table).floor < p.2 := by
  have htot : 0 < totalOf table := by
    match table, hne, hpos with
    | p :: rest, _, hpos =>
      have := hpos p (by simp)
      simp only [totalOf, List.map_cons, List.sum_cons]
      omega
  have htq : (0 : ℚ) < (totalOf table : ℚ) := by exact_mod_cast htot
  constructor
  · show Real.logb 10 (((1 / 100 : ℚ) / (totalOf table : ℚ) : ℚ) : ℝ) = _
    have hc : (((1 / 100 : ℚ) / (totalOf table : ℚ) : ℚ) : ℝ) =
        (0.01 : ℝ) / (totalOf table : ℝ) := by push_cast; norm_num
    rw [hc]
  · intro p hp
    simp only [mkScorerWith, List.mem_map] at hp
    obtain ⟨q, hq, rfl⟩ := hp
    show Real.logb 10 (((1 / 100 : ℚ) / (totalOf table : ℚ) : ℚ) : ℝ) <
      Real.logb 10 (((q.2 : ℚ) / (totalOf table : ℚ) : ℚ) : ℝ)
    have hc1 : (1 : ℚ) ≤ (q.2 : ℚ) := by exact_mod_cast hpos q hq
    apply Real.logb_lt_logb (by norm_num)
    · rw [Rat.cast_pos]
      exact div_pos (by norm_num) htq
    · rw [Rat.cast_lt]
      exact div_lt_div_of_pos_right (lt_of_lt_of_le (by norm_num) hc1) htq

/-- Closed instance: the fallback scorer's floor has the claimed closed
form, obtained from the floor theorem at the built-in table. -/
theorem scorer_floor_below_table_witness :
    defaultScorerR.floor = Real.logb 10 ((0.01 : ℝ) / (totalOf defaultQuadgrams : ℝ)) :=
  (scorer_floor_below_table defaultQuadgrams (by decide) (by decide)).1

/-- C4 as stated is false on the code: the input "ab!!" has only 2
alphabetic characters, yet its candidate decryption under the identity key
scores one floor-valued window "AB!!", not 0, because only spaces are
removed before windowing. -/
theorem score_short_alpha_claim_counterexample :
    ((['a', 'b', '!', '!'] : List Char).filter isAlphaA).length ≤ 3 ∧
    defaultScorerR.score (decrypt ['a', 'b', '!', '!'] (keyCharMap (fun i => i))) ≠ 0 := by
  refine ⟨by decide, ?_⟩
  have h1 : defaultScorerR.score (decrypt ['a', 'b', '!', '!'] (keyCharMap (fun i => i))) =
      0 + defaultScorerR.floor := rfl
  rw [h1, zero_add]
  exact ne_of_lt defaultFloor_neg

/-! ## Key bijectivity lemmas (C7) -/

theorem swapFn_involutive (a b : Fin 26) : Function.Involutive (swapFn a b) := by
  intro i
  simp only [swapFn]
  split_ifs <;> simp_all

theorem swapPos_eq_comp (k : Fin 26 → Fin 26) (a b : Fin 26) :
    swapPos k a b = k ∘ swapFn a b := by
  funext i
  simp only [swapPos, swapFn, Function.comp_apply, apply_ite k]

theorem swapPos_bijective {k : Fin 26 → Fin 26} (hk : Function.Bijective k) (a b : Fin 26) :
    Function.Bijective (swapPos k a b) := by
  rw [swapPos_eq_comp]
  exact hk.comp (swapFn_involutive a b).bijective

theorem mappingOf_fold_sound (k : Fin 26 → Fin 26) :
    ∀ (l : List (Fin 26)) (m0 : Fin 26 → Option (Fin 26)) (c i : Fin 26),
      (l.foldl (fun m j => fun x => if x = k j then some j else m x) m0) c = some i →
      m0 c = some i ∨ (i ∈ l ∧ k i = c)
  | [], _, _, _ => fun h => Or.inl h
  | j :: l, m0, c, i => fun h => by
    rw [List.foldl_cons] at h
    rcases mappingOf_fold_sound k l _ c i h with h1 | h2
    · by_cases hc : c = k j
      · rw [if_pos hc] at h1
        obtain rfl : j = i := Option.some_injective _ h1
        exact Or.inr ⟨List.mem_cons_self j l, hc.symm⟩
      · rw [if_neg hc] at h1
        exact Or.inl h1
    · exact Or.inr ⟨List.mem_cons_of_mem j h2.1, h2.2⟩

theorem mappingOf_fold_stays (k : Fin 26 → Fin 26) :
    ∀ (l : List (Fin 26)) (m0 : Fin 26 → Option (Fin 26)) (c : Fin 26),
      (∃ j, m0 c = some j) →
      ∃ j, (l.foldl (fun m j' => fun x => if x = k j' then some j' else m x) m0) c = some j
  | [], _, _ => fun h => h
  | j :: l, m0, c => fun hex => by
    obtain ⟨j0, hj0⟩ := hex
    rw [List.foldl_cons]
    apply mappingOf_fold_stays k l
    by_cases hc : c = k j
    · exact ⟨j, by simp [hc]⟩
    · exact ⟨j0, by simp [hc, hj0]⟩

theorem mappingOf_fold_hits (k : Fin 26 → Fin 26) :
    ∀ (l : List (Fin 26)) (m0 : Fin 26 → Option (Fin 26)) (c i : Fin 26),
      i ∈ l → k i = c →
      ∃ j, (l.foldl (fun m j' => fun x => if x = k j' then some j' else m x) m0) c = some j
  | j :: l, m0, c, i, hmem, hki => by
    rw [List.foldl_cons]
    rcases List.mem_cons.mp hmem with rfl | hl
    · apply mappingOf_fold_stays
      exact ⟨i, by simp [hki]⟩
    · exact mappingOf_fold_hits k l _ c i hl hki

theorem mappingOf_sound {k : Fin 26 → Fin 26} {c i : Fin 26} (h : mappingOf k c = some i) :
    k i = c := by
  rcases mappingOf_fold_sound k (List.finRange 26) (fun _ => none) c i h with h1 | h2
  · exact Option.noConfusion h1
  · exact h2.2

theorem mappingOf_total (k : Fin 26 → Fin 26) (hk : Function.Surjective k) (c : Fin 26) :
    ∃ i, mappingOf k c = some i := by
  obtain ⟨i, hi⟩ := hk c
  exact mappingOf_fold_hits k (List.finRange 26) _ c i (List.mem_finRange i) hi

theorem mappingOf_bijective {k : Fin 26 → Fin 26} (hk : Function.Bijective k) :
    MappingBijective k := by
  refine ⟨mappingOf_total k hk.2, ?_, ?_, fun c i h => mappingOf_sound h⟩
  · intro c₁ c₂ i h1 h2
    rw [← mappingOf_sound h1, ← mappingOf_sound h2]
  · intro i
    obtain ⟨j, hj⟩ := mappingOf_total k hk.2 (k i)
    have hji : j = i := hk.1 (mappingOf_sound hj)
    exact ⟨k i, hji ▸ hj⟩

theorem hillClimbStep_keys_bijective {R : Type} [LinearOrderedField R] (ct : List Char)
    (sc : QuadgramScorer R) {st : HCState R} (hc : Function.Bijective st.currentKey)
    (hb : Function.Bijective st.bestKey) (p : Fin 26 × Fin 26) :
    Function.Bijective (hillClimbStep ct sc st p).currentKey ∧
    Function.Bijective (hillClimbStep ct sc st p).bestKey := by
  simp only [hillClimbStep]
  split_ifs with h1 h2
  · exact ⟨swapPos_bijective hc _ _, swapPos_bijective hc _ _⟩
  · exact ⟨swapPos_bijective hc _ _, hb⟩
  · exact ⟨hc, hb⟩

/-- C7: starting from a bijective initial key (the model of the shuffled
alphabet), every key reachable by any sequence of two-position swap
mutations is bijective; in particular the current and best keys of every
hill-climbing iteration are bijective, and every bijective key induces a
dictionary that is a total bijection over the 26-letter alphabet (defined,
collision-free, and onto, with each binding coming from the key). -/
theorem search_keys_bijective (k0 : Fin 26 → Fin 26) (hk : Function.Bijective k0) :
    (∀ swaps : List (Fin 26 × Fin 26),
      Function.Bijective (swaps.foldl (fun k p => swapPos k p.1 p.2) k0)) ∧
    (∀ (R : Type) [LinearOrderedField R], ∀ (ct : List Char) (sc : QuadgramScorer R)
      (rand : ℕ → Fin 26 × Fin 26) (n : ℕ),
      Function.Bijective ((hcIter ct sc k0 rand n).currentKey) ∧
      Function.Bijective ((hcIter ct sc k0 rand n).bestKey)) ∧
    (∀ k : Fin 26 → Fin 26, Function.Bijective k → MappingBijective k) := by
  refine ⟨?_, ?_, fun k hk' => mappingOf_bijective hk'⟩
  · have hgen : ∀ (swaps : List (Fin 26 × Fin 26)) (k : Fin 26 → Fin 26),
        Function.Bijective k →
        Function.Bijective (swaps.foldl (fun k p => swapPos k p.1 p.2) k) := by
      intro swaps
      induction swaps with
      | nil => exact fun _ h => h
      | cons p rest ih =>
        intro k h
        rw [List.foldl_cons]
        exact ih _ (swapPos_bijective h p.1 p.2)
    exact fun swaps => hgen swaps k0 hk
  · intro R _ ct sc rand n
    induction n with
    | zero => exact ⟨hk, hk⟩
    | succ n ih => exact hillClimbStep_keys_bijective ct sc ih.1 ih.2 (rand n)

/-- Closed instance: one swap applied to the identity key yields a
bijective key, obtained from the bijectivity theorem. -/
theorem search_keys_bijective_witness :
    Function.Bijective (([((0 : Fin 26), (1 : Fin 26))]).foldl
      (fun k p => swapPos k p.1 p.2) (fun i => i)) :=
  (search_keys_bijective (fun i => i) Function.bijective_id).1 [((0 : Fin 26), (1 : Fin 26))]

/-! ## Hill-climbing invariants (C2) -/

theorem hillClimbStep_best_mono {R : Type} [LinearOrderedField R] (ct : List Char)
    (sc : QuadgramScorer R) (st : HCState R) (p : Fin 26 × Fin 26) :
    st.bestScore ≤ (hillClimbStep ct sc st p).bestScore := by
  simp only [hillClimbStep]
  split_ifs with h1 h2
  · exact le_of_lt h2
  · exact le_refl _
  · exact le_refl _

theorem hillClimbStep_inv {R : Type} [LinearOrderedField R] (ct : List Char)
    (sc : QuadgramScorer R) (st : HCState R) (p : Fin 26 × Fin 26)
    (h1 : st.currentScore ≤ st.bestScore)
    (h2 : st.bestScore = scoreOfKey ct sc st.bestKey)
    (h3 : st.currentScore = scoreOfKey ct sc st.currentKey) :
    (hillClimbStep ct sc st p).currentScore ≤ (hillClimbStep ct sc st p).bestScore ∧
    (hillClimbStep ct sc st p).bestScore = scoreOfKey ct sc (hillClimbStep ct sc st p).bestKey ∧
    (hillClimbStep ct sc st p).currentScore =
      scoreOfKey ct sc (hillClimbStep ct sc st p).currentKey := by
  simp only [hillClimbStep]
  split_ifs with ha hb
  · exact ⟨le_refl _, rfl, rfl⟩
  · exact ⟨le_of_not_lt hb, h2, rfl⟩
  · exact ⟨h1, h2, h3⟩

theorem hcIter_inv {R : Type} [LinearOrderedField R] (ct : List Char) (sc : QuadgramScorer R)
    (k0 : Fin 26 → Fin 26) (rand : ℕ → Fin 26 × Fin 26) : ∀ n : ℕ,
    (hcIter ct sc k0 rand n).currentScore ≤ (hcIter ct sc k0 rand n).bestScore ∧
    (hcIter ct sc k0 rand n).bestScore = scoreOfKey ct sc (hcIter ct sc k0 rand n).bestKey ∧
    (hcIter ct sc k0 rand n).currentScore =
      scoreOfKey ct sc (hcIter ct sc k0 rand n).currentKey
  | 0 => ⟨le_refl _, rfl, rfl⟩
  | n + 1 => by
    obtain ⟨h1, h2, h3⟩ := hcIter_inv ct sc k0 rand n
    exact hillClimbStep_inv ct sc _ (rand n) h1 h2 h3

theorem hcIter_best_mono {R : Type} [LinearOrderedField R] (ct : List Char)
    (sc : QuadgramScorer R) (k0 : Fin 26 → Fin 26) (rand : ℕ → Fin 26 × Fin 26)
    {m n : ℕ} (h : m ≤ n) :
    (hcIter ct sc k0 rand m).bestScore ≤ (hcIter ct sc k0 rand n).bestScore := by
  induction n, h using Nat.le_induction with
  | base => exact le_refl _
  | succ n _ ih => exact le_trans ih (hillClimbStep_best_mono ct sc _ (rand n))

theorem hillClimbStep_accept {R : Type} [LinearOrderedField R] (ct : List Char)
    (sc : QuadgramScorer R) (st : HCState R) (p : Fin 26 × Fin 26)
    (hne : (hillClimbStep ct sc st p).currentKey ≠ st.currentKey) :
    (hillClimbStep ct sc st p).currentKey = swapPos st.currentKey p.1 p.2 ∧
    (hillClimbStep ct sc st p).currentScore =
      scoreOfKey ct sc (swapPos st.currentKey p.1 p.2) ∧
    st.currentScore < (hillClimbStep ct sc st p).currentScore := by
  simp only [hillClimbStep] at hne ⊢
  split_ifs at hne ⊢ with ha hb
  · exact ⟨rfl, rfl, ha⟩
  · exact ⟨rfl, rfl, ha⟩
  · exact absurd rfl hne

/-- C2: within one hill-climbing run, a mutated key is accepted as current
only on a strict improvement of the current score (and the accepted current
key is exactly the swap mutation, carrying its own score); the tracked best
score is non-decreasing over iterations; every intermediate current score
is at most the final best score; and the run over exactly its iteration
budget returns the decryption, key and score of the best-ever state (whose
score is the score of the returned key). -/
theorem hill_climb_invariants {R : Type} [LinearOrderedField R] (ct : List Char)
    (sc : QuadgramScorer R) (k0 : Fin 26 → Fin 26) (rand : ℕ → Fin 26 × Fin 26)
    (max_iter : ℕ) :
    (∀ n : ℕ, (hcIter ct sc k0 rand n).bestScore ≤ (hcIter ct sc k0 rand (n + 1)).bestScore) ∧
    (∀ n : ℕ, (hcIter ct sc k0 rand (n + 1)).currentKey ≠ (hcIter ct sc k0 rand n).currentKey →
      (hcIter ct sc k0 rand (n + 1)).currentKey =
        swapPos (hcIter ct sc k0 rand n).currentKey (rand n).1 (rand n).2 ∧
      (hcIter ct sc k0 rand (n + 1)).currentScore =
        scoreOfKey ct sc (hcIter ct sc k0 rand (n + 1)).currentKey ∧
      (hcIter ct sc k0 rand n).currentScore < (hcIter ct sc k0 rand (n + 1)).currentScore) ∧
    (∀ n ≤ max_iter, (hcIter ct sc k0 rand n).currentScore ≤
      (hcIter ct sc k0 rand max_iter).bestScore) ∧
    hill_climb ct sc k0 rand max_iter =
      (decrypt ct (keyCharMap (hcIter ct sc k0 rand max_iter).bestKey),
        (hcIter ct sc k0 rand max_iter).bestKey,
        (hcIter ct sc k0 rand max_iter).bestScore) ∧
    (hcIter ct sc k0 rand max_iter).bestScore =
      scoreOfKey ct sc (hcIter ct sc k0 rand max_iter).bestKey := by
  refine ⟨?_, ?_, ?_, rfl, (hcIter_inv ct sc k0 rand max_iter).2.1⟩
  · exact fun n => hillClimbStep_best_mono ct sc _ (rand n)
  · intro n hne
    obtain ⟨hkey, hsc, hlt⟩ := hillClimbStep_accept ct sc _ (rand n) hne
    exact ⟨hkey, (hcIter_inv ct sc k0 rand (n + 1)).2.2, hlt⟩
  · intro n hn
    exact le_trans (hcIter_inv ct sc k0 rand n).1 (hcIter_best_mono ct sc k0 rand hn)

/-- Closed instance of the best-score monotonicity at the first iteration
of a concrete run evaluated over `ℚ`. -/
theorem hill_climb_invariants_witness :
    (hcIter ([] : List Char) (QuadgramScorer.mk ([] : List (List Char × ℚ)) (-1))
        (fun i => i) (fun _ => ((0 : Fin 26), (1 : Fin 26))) 0).bestScore ≤
      (hcIter ([] : List Char) (QuadgramScorer.mk ([] : List (List Char × ℚ)) (-1))
        (fun i => i) (fun _ => ((0 : Fin 26), (1 : Fin 26))) 1).bestScore :=
  (hill_climb_invariants [] (QuadgramScorer.mk [] (-1)) (fun i => i)
    (fun _ => ((0 : Fin 26), (1 : Fin 26))) 0).1 0

/-! ## Multi-restart solver (C1) -/

theorem foldl_pickBetter_split {α : Type} {R : Type} [LinearOrderedField R] (f : α → R) :
    ∀ (l : List α) (b : α), ∃ pre post,
      b :: l = pre ++ (l.foldl (pickBetter f) b) :: post ∧
      (∀ c ∈ pre, f c < f (l.foldl (pickBetter f) b)) ∧
      (∀ c ∈ post, f c ≤ f (l.foldl (pickBetter f) b))
  | [], b => ⟨[], [], rfl, by simp, by simp⟩
  | x :: xs, b => by
    rw [List.foldl_cons]
    by_cases hbx : f b < f x
    · have hpb : pickBetter f b x = x := if_pos hbx
      rw [hpb]
      obtain ⟨pre, post, heq, hpre, hpost⟩ := foldl_pickBetter_split f xs x
      rcases pre with _ | ⟨y, pre₂⟩
      · rw [List.nil_append] at heq
        injection heq with hx htl
        refine ⟨[b], post, ?_, ?_, hpost⟩
        · rw [List.singleton_append, ← hx, ← htl]
        · intro c hc
          rw [List.mem_singleton.mp hc, ← hx]
          exact hbx
      · rw [List.cons_append] at heq
        injection heq with hy htl
        refine ⟨b :: x :: pre₂, post, ?_, ?_, hpost⟩
        · rw [List.cons_append, List.cons_append, ← htl]
        · have hxr : f x < f (xs.foldl (pickBetter f) x) := hy ▸ hpre y (List.mem_cons_self y pre₂)
          intro c hc
          rcases List.mem_cons.mp hc with rfl | hc₂
          · exact lt_trans hbx hxr
          rcases List.mem_cons.mp hc₂ with rfl | hc₃
          · exact hxr
          · exact hpre c (List.mem_cons_of_mem y hc₃)
    · have hpb : pickBetter f b x = b := if_neg hbx
      rw [hpb]
      obtain ⟨pre, post, heq, hpre, hpost⟩ := foldl_pickBetter_split f xs b
      rcases pre with _ | ⟨y, pre₂⟩
      · rw [List.nil_append] at heq
        injection heq with hb htl
        refine ⟨[], x :: post, ?_, by simp, ?_⟩
        · rw [List.nil_append, ← hb, ← htl]
        · intro c hc
          rcases List.mem_cons.mp hc with rfl | hc₂
          · rw [← hb]
            exact le_of_not_lt hbx
          · exact hpost c hc₂
      · rw [List.cons_append] at heq
        injection heq with hy htl
        have hbr : f b < f (xs.foldl (pickBetter f) b) := hy ▸ hpre y (List.mem_cons_self y pre₂)
        refine ⟨b :: x :: pre₂, post, ?_, ?_, hpost⟩
        · rw [List.cons_append, List.cons_append, ← htl]
        · intro c hc
          rcases List.mem_cons.mp hc with rfl | hc₂
          · exact hbr
          rcases List.mem_cons.mp hc₂ with rfl | hc₃
          · exact lt_of_le_of_lt (le_of_not_lt hbx) hbr
          · exact hpre c (List.mem_cons_of_mem y hc₃)

theorem solveStep_some {R : Type} [LinearOrderedField R] (ct : List Char)
    (sc : QuadgramScorer R) (iters : ℕ) (b : List Char × (Fin 26 → Fin 26) × R)
    (r : (Fin 26 → Fin 26) × (ℕ → Fin 26 × Fin 26)) :
    solveStep ct sc iters (some b) r =
      some (pickBetter (fun c => c.2.2) b (hill_climb ct sc r.1 r.2 iters)) := by
  simp only [solveStep, pickBetter]
  split_ifs <;> rfl

theorem foldl_solveStep_some {R : Type} [LinearOrderedField R] (ct : List Char)
    (sc : QuadgramScorer R) (iters : ℕ) :
    ∀ (rs : List ((Fin 26 → Fin 26) × (ℕ → Fin 26 × Fin 26)))
      (b : List Char × (Fin 26 → Fin 26) × R),
      rs.foldl (solveStep ct sc iters) (some b) =
        some ((rs.map (fun r => hill_climb ct sc r.1 r.2 iters)).foldl
          (pickBetter (fun c => c.2.2)) b)
  | [], _ => rfl
  | r :: rs, b => by
    rw [List.foldl_cons, solveStep_some, List.map_cons, List.foldl_cons]
    exact foldl_solveStep_some ct sc iters rs _

/-- C1: with at least one restart, `solve_substitution` returns a
candidate, and the list of candidates of its constituent hill-climbing runs
splits around the returned one with every earlier run scoring strictly less
(ties are broken in favour of the first-found run) and every later run
scoring no more; in particular the returned score is at least the score of
every constituent run. -/
theorem solve_substitution_first_max {R : Type} [LinearOrderedField R] (ct : List Char)
    (sc : QuadgramScorer R) (runs : List ((Fin 26 → Fin 26) × (ℕ → Fin 26 × Fin 26)))
    (iters : ℕ) (hne : runs ≠ []) :
    ∃ out, solve_substitution ct sc runs iters = some out ∧
      (∃ pre post,
        runs.map (fun r => hill_climb ct sc r.1 r.2 iters) = pre ++ out :: post ∧
        (∀ c ∈ pre, c.2.2 < out.2.2) ∧ (∀ c ∈ post, c.2.2 ≤ out.2.2)) ∧
      ∀ r ∈ runs, (hill_climb ct sc r.1 r.2 iters).2.2 ≤ out.2.2 := by
  match runs, hne with
  | r0 :: rs, _ =>
    have hs : solve_substitution ct sc (r0 :: rs) iters =
        some ((rs.map (fun r => hill_climb ct sc r.1 r.2 iters)).foldl
          (pickBetter (fun c => c.2.2)) (hill_climb ct sc r0.1 r0.2 iters)) := by
      rw [solve_substitution, List.foldl_cons]
      exact foldl_solveStep_some ct sc iters rs _
    obtain ⟨pre, post, heq, hpre, hpost⟩ :=
      foldl_pickBetter_split (fun c => c.2.2) (rs.map (fun r => hill_climb ct sc r.1 r.2 iters))
        (hill_climb ct sc r0.1 r0.2 iters)
    refine ⟨_, hs, ⟨pre, post, ?_, hpre, hpost⟩, ?_⟩
    · rw [List.map_cons]
      exact heq
    intro r hr
    have hmem : hill_climb ct sc r.1 r.2 iters ∈
        (r0 :: rs).map (fun r => hill_climb ct sc r.1 r.2 iters) :=
      List.mem_map_of_mem _ hr
    simp only [List.map_cons] at hmem
    rw [heq] at hmem
    rcases List.mem_append.mp hmem with hp | hq
    · exact le_of_lt (hpre _ hp)
    rcases List.mem_cons.mp hq with hout | hq₂
    · rw [hout]
    · exact hpost _ hq₂

/-- Closed instance: a one-restart solve returns a candidate, obtained from
the first-max theorem with the non-emptiness hypothesis discharged. -/
theorem solve_substitution_first_max_witness :
    (solve_substitution ([] : List Char) (QuadgramScorer.mk ([] : List (List Char × ℚ)) (-1))
      [((fun i => i), fun _ => ((0 : Fin 26), (1 : Fin 26)))] 0).isSome = true := by
  obtain ⟨out, hout, -, -⟩ :=
    solve_substitution_first_max ([] : List Char)
      (QuadgramScorer.mk ([] : List (List Char × ℚ)) (-1))
      [((fun i => i), fun _ => ((0 : Fin 26), (1 : Fin 26)))] 0 (by simp)
  rw [hout]
  rfl

/-! ## Decryption cache (C8) -/

theorem cacheGet_cachePut {R : Type} (cache : List (String × CacheEntry R)) (h : String)
    (e : CacheEntry R) : cacheGet (cachePut cache h e) h = some e := by
  simp [cacheGet, cachePut, List.lookup]

/-- C8: the content key of identical ciphertext bytes is identical (the
hash is a pure function of the bytes); on a miss the fresh entry is written
to the cache before being returned, with the optimizer invoked; the
returned cache always holds the returned entry under the input's hash; and
a repeated request with the same bytes against the returned cache yields
the very same entry and cache without invoking the optimizer again. -/
theorem processFile_cache {R : Type} (hash : List ℕ → String)
    (solver : List ℕ → CacheEntry R) (cache : List (String × CacheEntry R)) (bytes : List ℕ) :
    (∀ bytes2 : List ℕ, bytes2 = bytes → hash bytes2 = hash bytes) ∧
    (cacheGet cache (hash bytes) = none →
      (processFile hash solver cache bytes).2.1 =
        cachePut cache (hash bytes) (processFile hash solver cache bytes).1 ∧
      (processFile hash solver cache bytes).2.2 = true) ∧
    cacheGet (processFile hash solver cache bytes).2.1 (hash bytes) =
      some (processFile hash solver cache bytes).1 ∧
    processFile hash solver (processFile hash solver cache bytes).2.1 bytes =
      ((processFile hash solver cache bytes).1, (processFile hash solver cache bytes).2.1,
        false) := by
  rcases hg : cacheGet cache (hash bytes) with _ | e
  · have h1 : processFile hash solver cache bytes =
        (solver bytes, cachePut cache (hash bytes) (solver bytes), true) := by
      simp [processFile, hg]
    rw [h1]
    refine ⟨fun b2 hb => by rw [hb], fun _ => ⟨rfl, rfl⟩, cacheGet_cachePut cache _ _, ?_⟩
    simp [processFile, cacheGet_cachePut]
  · have h1 : processFile hash solver cache bytes = (e, cache, false) := by
      simp [processFile, hg]
    rw [h1]
    refine ⟨fun b2 hb => by rw [hb], fun hnone => ?_, hg, ?_⟩
    · exact Option.noConfusion hnone
    · simp [processFile, hg]

/-- Closed instance of the cache behaviour: with an empty cache the first
request misses (invoking the optimizer), and the repeated request is
answered from the written cache without invoking the optimizer. -/
theorem processFile_cache_witness :
    (processFile (fun _ => "h") (fun _ => CacheEntry.mk [] (fun _ => none) (0 : ℚ))
        [] []).2.2 = true ∧
    (processFile (fun _ => "h") (fun _ => CacheEntry.mk [] (fun _ => none) (0 : ℚ))
      (processFile (fun _ => "h") (fun _ => CacheEntry.mk [] (fun _ => none) (0 : ℚ))
        [] []).2.1 []).2.2 = false :=
  ⟨((processFile_cache (fun _ => "h") (fun _ => CacheEntry.mk [] (fun _ => none) (0 : ℚ))
      [] []).2.1 rfl).2,
   by rw [(processFile_cache (fun _ => "h")
      (fun _ => CacheEntry.mk [] (fun _ => none) (0 : ℚ)) [] []).2.2.2]⟩

/-! ## Persisted cache corruption (C9) -/

/-- C9 fails on the code: a malformed persisted entry (here an object
missing the "decrypted_text" field) is not treated as a cache miss; the
hit path performs the unchecked field access and fails with a KeyError
instead of running the solver. -/
theorem retrieve_malformed_entry_errors :
    retrieveDecryption [("deadbeef", JVal.obj [])] "deadbeef" (fun _ => "X") =
      Except.error "KeyError" ∧
    retrieveDecryption [("deadbeef", JVal.obj [])] "deadbeef" (fun _ => "X") ≠
      Except.ok "X" := by
  refine ⟨rfl, fun h => ?_⟩
  exact Except.noConfusion
    (show (Except.error "KeyError" : Except String String) = Except.ok "X" from h)

end Pypher
